import Mathlib

/-!
Shallow embedding of `cpb::HoppingBlocks` (pybinding, `hopping_blocks` header).

The header in `src/unnamed/part_000` declares the class and gives inline
bodies for the `COO` constructor, `add`, the iterator, `get_blocks`,
`begin`/`end` and the constructors.  The out-of-line bodies of `nnz`,
`reserve`, `append` and `to_csr` are not part of the sources; those are
modelled from the spec (each such definition says so in its doc comment).

Machine integers: `idx_t` is modelled as the unbounded `Int` (its typedef in
`numeric/dense.hpp` is not part of the sources); `storage_idx_t` is modelled
as a 32-bit two's-complement signed integer, i.e. values produced by
`wrapStorage`.  Out-of-range vector indexing (`blocks[family_id]`) is
undefined behaviour in C++; the embedding models it as `Option` failure.
-/

/-- Width of `storage_idx_t` in bits (a 32-bit signed integer). -/
def storageWidth : Nat := 32

/-- `static_cast<storage_idx_t>` : reduce an integer to 32-bit two's
complement.  The result always lies in `[-2^31, 2^31)`. -/
def wrapStorage (x : Int) : Int :=
  (x + 2 ^ 31) % 2 ^ 32 - 2 ^ 31

/-- `HoppingBlocks::COO`: a coordinate pair of `storage_idx_t` components
(fields hold the already-cast values). -/
structure COO where
  row : Int
  col : Int
deriving DecidableEq, Repr

/-- The `COO(idx_t row, idx_t col)` constructor: stores both components via
an unchecked `static_cast<storage_idx_t>`. -/
def COO.make (row col : Int) : COO :=
  ⟨wrapStorage row, wrapStorage col⟩

/-- `HoppingBlocks::Block = std::vector<COO>`. -/
abbrev Block := List COO

/-- The `HoppingBlocks` state: `num_sites` (`idx_t`) and the per-family
coordinate blocks.  `caps` models the capacity of each block's backing
`std::vector` storage (one capacity per family); it is unobservable through
`get_blocks`/`nnz`/`to_csr` and exists so that `reserve` — which only
pre-allocates backing storage — is not a definitional no-op. -/
structure HoppingBlocks where
  num_sites : Int
  blocks : List Block
  caps : List Nat
deriving Repr

/-- `HoppingBlocks(idx_t num_sites, idx_t num_families)`: `num_families`
empty blocks. -/
def HoppingBlocks.init (num_sites num_families : Int) : HoppingBlocks :=
  ⟨num_sites, List.replicate num_families.toNat [], List.replicate num_families.toNat 0⟩

/-- `get_blocks()`. -/
def HoppingBlocks.get_blocks (hb : HoppingBlocks) : List Block :=
  hb.blocks

/-- Modelled from the spec (body of `HoppingBlocks::nnz` is not in the
sources): "Total non-zero count is the sum of all block lengths."  Returns
`idx_t`. -/
def HoppingBlocks.nnz (hb : HoppingBlocks) : Int :=
  (hb.blocks.map fun b => (b.length : Int)).sum

/-- Modelled from the spec (body of `HoppingBlocks::reserve` is not in the
sources): "pre-allocates each block's backing storage to that capacity";
`std::vector::reserve` only ever grows capacity.  Only `caps` changes. -/
def HoppingBlocks.reserve (hb : HoppingBlocks) (counts : List Int) : HoppingBlocks :=
  { hb with caps := ((List.range hb.caps.length).map fun i =>
      max (hb.caps.getD i 0) ((counts.getD i 0).toNat)) }

/-- Grow a block's capacity so it can hold `n` elements: `std::vector`
guarantees capacity ≥ size; the exact growth policy is
implementation-defined, so the model keeps the minimal guarantee. -/
def growCap (caps : List Nat) (i n : Nat) : List Nat :=
  caps.set i (max (caps.getD i 0) n)

/-- `add(family_id, row, col)`: `blocks[family_id].push_back({row, col})`.
`std::vector::operator[]` with an out-of-range index is undefined behaviour,
modelled as `none`; `row`/`col` are not validated at all. -/
def HoppingBlocks.add (hb : HoppingBlocks) (family_id row col : Int) : Option HoppingBlocks :=
  if h : 0 ≤ family_id ∧ family_id.toNat < hb.blocks.length then
    let b := hb.blocks.get ⟨family_id.toNat, h.2⟩
    some { hb with
      blocks := hb.blocks.set family_id.toNat (b ++ [COO.make row col]),
      caps := growCap hb.caps family_id.toNat (b.length + 1) }
  else
    none

/-- Modelled from the spec (body of `HoppingBlocks::append` is not in the
sources): "appends a parallel array of rows and an equal-length array of
columns to one family's block in one operation".  Indexing by `family_id`
fails out of range exactly as in `add`. -/
def HoppingBlocks.append (hb : HoppingBlocks) (family_id : Int)
    (rows cols : List Int) : Option HoppingBlocks :=
  if h : 0 ≤ family_id ∧ family_id.toNat < hb.blocks.length then
    let b := hb.blocks.get ⟨family_id.toNat, h.2⟩
    some { hb with
      blocks := hb.blocks.set family_id.toNat (b ++ List.zipWith COO.make rows cols),
      caps := growCap hb.caps family_id.toNat (b.length + min rows.length cols.length) }
  else
    none

/-- A sequence of single `add` calls into one family, in order. -/
def HoppingBlocks.addSeq (hb : HoppingBlocks) (family_id : Int)
    (pairs : List (Int × Int)) : Option HoppingBlocks :=
  pairs.foldlM (fun s p => s.add family_id p.1 p.2) hb

/-- One mutation request: a single `add` or a bulk `append`. -/
inductive StoreOp where
  | addOp (family_id row col : Int)
  | appendOp (family_id : Int) (rows cols : List Int)

/-- Run a sequence of `add`/`append` calls. -/
def HoppingBlocks.runOps (hb : HoppingBlocks) (ops : List StoreOp) : Option HoppingBlocks :=
  ops.foldlM
    (fun s op =>
      match op with
      | .addOp f r c => s.add f r c
      | .appendOp f rs cs => s.append f rs cs)
    hb

/-- The observable content of a store: everything `get_blocks`, `nnz` and
`to_csr` can see (capacity is invisible to them). -/
def HoppingBlocks.content (hb : HoppingBlocks) : Int × List Block :=
  (hb.num_sites, hb.blocks)

/-- `HoppingBlocks::Iterator`: holds the iterator into `blocks` (modelled as
the remaining list) and the running family id, incremented in lock-step. -/
structure HBIterator where
  rest : List Block
  id : Int

/-- `begin()`: iterator at the first block, `id = 0`. -/
def HoppingBlocks.beginIter (hb : HoppingBlocks) : HBIterator :=
  ⟨hb.blocks, 0⟩

/-- `operator++`: `++it; ++id`. -/
def HBIterator.next (it : HBIterator) : HBIterator :=
  ⟨it.rest.tail, it.id + 1⟩

/-- `it == end()` holds exactly when no blocks remain. -/
def HBIterator.atEnd (it : HBIterator) : Bool :=
  it.rest.isEmpty

/-- The sequence of `(family_id(), coordinates())` views produced by
advancing an iterator until `end()`; structural recursion on the remaining
blocks. -/
def traverseFrom : List Block → Int → List (Int × Block)
  | [], _ => []
  | b :: bs, id => (id, b) :: traverseFrom bs (id + 1)

/-- Full traversal from `begin()` to `end()`. -/
def HoppingBlocks.traverse (hb : HoppingBlocks) : List (Int × Block) :=
  traverseFrom hb.beginIter.rest hb.beginIter.id

/-- One flattened matrix entry during `to_csr` conversion: the coordinate
pair together with the implicit data value (the originating family id, cast
to `storage_idx_t`). -/
structure Triple where
  row : Int
  col : Int
  val : Int
deriving DecidableEq, Repr

/-- Order on flattened entries: by `row` ascending, then `col` ascending
(non-strict, as used by the sort). -/
def lexLe (t u : Triple) : Prop :=
  t.row < u.row ∨ (t.row = u.row ∧ t.col ≤ u.col)

/-- Strict version of `lexLe`: row strictly before, or same row and column
strictly before. -/
def lexLt (t u : Triple) : Prop :=
  t.row < u.row ∨ (t.row = u.row ∧ t.col < u.col)

instance : DecidableRel lexLe := fun t u => by
  unfold lexLe; exact inferInstance

instance : DecidableRel lexLt := fun t u => by
  unfold lexLt; exact inferInstance

instance : IsTotal Triple lexLe :=
  ⟨fun t u => by unfold lexLe; omega⟩

instance : IsTrans Triple lexLe :=
  ⟨fun t u v htu huv => by unfold lexLe at *; omega⟩

/-- Modelled from the spec (body of `HoppingBlocks::to_csr` is not in the
sources), step 1: "Flatten every block into a single list of
(row, col, family_id) triples"; the family id is the block's position,
emitted as `storage_idx_t`.  `j` is the id of the first block in `bs`. -/
def flattenFrom : Nat → List Block → List Triple
  | _, [] => []
  | j, b :: bs => b.map (fun c => ⟨c.row, c.col, wrapStorage j⟩) ++ flattenFrom (j + 1) bs

/-- All blocks flattened, family ids starting at 0. -/
def HoppingBlocks.flatten (hb : HoppingBlocks) : List Triple :=
  flattenFrom 0 hb.blocks

/-- The list of (row, col) keys of the flattened store, used to state the
no-duplicate-coordinate precondition. -/
def HoppingBlocks.pairList (hb : HoppingBlocks) : List (Int × Int) :=
  hb.flatten.map fun t => (t.row, t.col)

/-- Step 2 of `to_csr`: stable-sort the triples by row, then column. -/
def HoppingBlocks.sortedTriples (hb : HoppingBlocks) : List Triple :=
  List.insertionSort lexLe hb.flatten

/-- Step 3a of `to_csr`: per-row entry counts, rows `0 .. n-1`. -/
def rowCounts (n : Nat) (ts : List Triple) : List Nat :=
  (List.range n).map fun (r : Nat) => ts.countP fun t => decide (t.row = (r : Int))

/-- Step 3b of `to_csr`: prefix sums; entry `i` is the number of entries in
rows before `i`, entry `n` the total. -/
def prefixSums (l : List Nat) : List Nat :=
  (List.range (l.length + 1)).map fun i => (l.take i).sum

/-- The produced CSR matrix: row-pointer array, column-index array and
value array (`SparseMatrixX<storage_idx_t>`). -/
structure CSR where
  indptr : List Nat
  indices : List Int
  data : List Int
deriving DecidableEq, Repr

/-- Modelled from the spec (body of `HoppingBlocks::to_csr` is not in the
sources): flatten, stable-sort by (row, col), build the row-pointer array
of length `num_sites + 1` by counting entries per row and prefix-summing,
and emit the column-index and value arrays in sorted order. -/
def HoppingBlocks.to_csr (hb : HoppingBlocks) : CSR :=
  let ts := hb.sortedTriples
  { indptr := prefixSums (rowCounts hb.num_sites.toNat ts),
    indices := ts.map Triple.col,
    data := ts.map Triple.val }

/-- Read a CSR matrix back into its entry list: for each row `r`, the
entries at positions `[indptr r, indptr (r+1))` of the parallel
column/value arrays, with row index `r`. -/
def CSR.decompress (c : CSR) : List Triple :=
  (List.range (c.indptr.length - 1)).flatMap fun r =>
    (((c.indices.zip c.data).drop (c.indptr.getD r 0)).take
        (c.indptr.getD (r + 1) 0 - c.indptr.getD r 0)).map
      fun p => ⟨(r : Int), p.1, p.2⟩

/-- The data-model invariant: every stored coordinate pair's `row` and
`col` lie in `[0, num_sites)`. -/
def HoppingBlocks.coordsInRange (hb : HoppingBlocks) : Prop :=
  ∀ b ∈ hb.blocks, ∀ c ∈ b,
    0 ≤ c.row ∧ c.row < hb.num_sites ∧ 0 ≤ c.col ∧ c.col < hb.num_sites

instance (hb : HoppingBlocks) : Decidable hb.coordsInRange := by
  unfold HoppingBlocks.coordsInRange
  exact inferInstance

/-- A sequence of single `add` calls, each into the family its request
names. -/
def HoppingBlocks.runAdds (hb : HoppingBlocks) (ops : List (Int × Int × Int)) :
    Option HoppingBlocks :=
  ops.foldlM (fun s op => s.add op.1 op.2.1 op.2.2) hb

/-- The worked scenario from the design: `num_sites = 5`, two families,
family 0 = {(0,1), (0,4), (1,2)} and family 1 = {(2,0), (2,3)}. -/
def sampleHB : HoppingBlocks :=
  ⟨5, [[⟨0, 1⟩, ⟨0, 4⟩, ⟨1, 2⟩], [⟨2, 0⟩, ⟨2, 3⟩]], [0, 0]⟩

/-! ### Facts about the storage cast -/

/-- The cast is the identity on values representable in `storage_idx_t`. -/
theorem wrapStorage_of_mem_range {x : Int} (h1 : -2 ^ 31 ≤ x) (h2 : x < 2 ^ 31) :
    wrapStorage x = x := by
  unfold wrapStorage
  omega

/-- The cast always lands in the `storage_idx_t` range. -/
theorem wrapStorage_mem_range (x : Int) :
    -2 ^ 31 ≤ wrapStorage x ∧ wrapStorage x < 2 ^ 31 := by
  unfold wrapStorage
  omega

/-- The cast only discards multiples of `2^32`. -/
theorem wrapStorage_emod (x : Int) : wrapStorage x % 2 ^ 32 = x % 2 ^ 32 := by
  unfold wrapStorage
  omega

/-- On natural numbers below `2^31` the cast is the identity. -/
theorem wrapStorage_natCast {j : Nat} (h : j < 2 ^ 31) :
    wrapStorage (j : Int) = (j : Int) :=
  wrapStorage_of_mem_range (by omega) (by exact_mod_cast h)

/-! ### Facts about flattening -/

theorem length_flattenFrom (j : Nat) (bs : List Block) :
    (flattenFrom j bs).length = (bs.map List.length).sum := by
  induction bs generalizing j with
  | nil => rfl
  | cons b bs ih => simp [flattenFrom, ih]

/-- Every flattened triple's value is the cast id of the block holding its
coordinate pair. -/
theorem mem_flattenFrom {j : Nat} {bs : List Block} {t : Triple}
    (h : t ∈ flattenFrom j bs) :
    ∃ k, ∃ hk : k < bs.length,
      t.val = wrapStorage ((j + k : Nat) : Int) ∧
        (⟨t.row, t.col⟩ : COO) ∈ bs.get ⟨k, hk⟩ := by
  induction bs generalizing j with
  | nil => simp [flattenFrom] at h
  | cons b bs ih =>
    simp only [flattenFrom, List.mem_append, List.mem_map] at h
    rcases h with ⟨c, hc, rfl⟩ | h
    · exact ⟨0, by simp, by simp, by simpa using hc⟩
    · obtain ⟨k, hk, hval, hmem⟩ := ih h
      refine ⟨k + 1, by simpa using hk, ?_, by simpa using hmem⟩
      rw [show j + (k + 1) = (j + 1) + k by omega]
      exact hval

/-- `nnz` is the length of the flattened triple list. -/
theorem nnz_eq_length_flatten (hb : HoppingBlocks) :
    hb.nnz = (hb.flatten.length : Int) := by
  unfold HoppingBlocks.nnz HoppingBlocks.flatten
  rw [length_flattenFrom, Nat.cast_list_sum, List.map_map]
  rfl

/-! ### Counting entries per row -/

/-- Splitting a count at the upper end of a half-open row interval. -/
theorem countP_row_split (ts : List Triple) (r : Nat) :
    (ts.countP fun t => decide (0 ≤ t.row ∧ t.row < (r : Int))) +
        ts.countP (fun t => decide (t.row = (r : Int))) =
      ts.countP fun t => decide (0 ≤ t.row ∧ t.row < ((r + 1 : Nat) : Int)) := by
  induction ts with
  | nil => rfl
  | cons t ts ih =>
    by_cases h1 : 0 ≤ t.row ∧ t.row < (r : Int)
    · rw [List.countP_cons_of_pos (fun (u : Triple) => decide (0 ≤ u.row ∧ u.row < (r : Int)))
          _ (by simp only [decide_eq_true_eq]; omega),
        List.countP_cons_of_neg (fun (u : Triple) => decide (u.row = (r : Int)))
          _ (by simp only [decide_eq_true_eq]; omega),
        List.countP_cons_of_pos (fun (u : Triple) => decide (0 ≤ u.row ∧ u.row < ((r + 1 : Nat) : Int)))
          _ (by simp only [decide_eq_true_eq]; omega)]
      omega
    · by_cases h2 : t.row = (r : Int)
      · rw [List.countP_cons_of_neg (fun (u : Triple) => decide (0 ≤ u.row ∧ u.row < (r : Int)))
            _ (by simp only [decide_eq_true_eq]; omega),
          List.countP_cons_of_pos (fun (u : Triple) => decide (u.row = (r : Int)))
            _ (by simp only [decide_eq_true_eq]; omega),
          List.countP_cons_of_pos (fun (u : Triple) => decide (0 ≤ u.row ∧ u.row < ((r + 1 : Nat) : Int)))
            _ (by simp only [decide_eq_true_eq]; omega)]
        omega
      · rw [List.countP_cons_of_neg (fun (u : Triple) => decide (0 ≤ u.row ∧ u.row < (r : Int)))
            _ (by simp only [decide_eq_true_eq]; omega),
          List.countP_cons_of_neg (fun (u : Triple) => decide (u.row = (r : Int)))
            _ (by simp only [decide_eq_true_eq]; omega),
          List.countP_cons_of_neg (fun (u : Triple) => decide (0 ≤ u.row ∧ u.row < ((r + 1 : Nat) : Int)))
            _ (by simp only [decide_eq_true_eq]; omega)]
        omega

/-- Summing the per-row counts over rows `0 .. r-1` counts the entries with
row in `[0, r)`. -/
theorem sum_range_countP (ts : List Triple) (r : Nat) :
    ((List.range r).map fun (i : Nat) => ts.countP fun t => decide (t.row = (i : Int))).sum =
      ts.countP fun t => decide (0 ≤ t.row ∧ t.row < (r : Int)) := by
  induction r with
  | zero =>
    simp only [List.range_zero, List.map_nil, List.sum_nil]
    symm
    rw [List.countP_eq_zero]
    intro t _
    simp only [decide_eq_true_eq]
    omega
  | succ r ih =>
    rw [List.range_succ, List.map_append, List.sum_append]
    simp only [List.map_cons, List.map_nil, List.sum_cons, List.sum_nil, Nat.add_zero]
    rw [ih, countP_row_split]

/-- With every row in `[0, n)`, the row counts sum to the entry count. -/
theorem sum_rowCounts (n : Nat) (ts : List Triple)
    (h : ∀ t ∈ ts, 0 ≤ t.row ∧ t.row < (n : Int)) :
    (rowCounts n ts).sum = ts.length := by
  unfold rowCounts
  rw [sum_range_countP, List.countP_eq_length]
  intro t ht
  simpa using h t ht

theorem length_rowCounts (n : Nat) (ts : List Triple) :
    (rowCounts n ts).length = n := by
  simp [rowCounts]

theorem take_rowCounts (n r : Nat) (ts : List Triple) (h : r ≤ n) :
    (rowCounts n ts).take r = rowCounts r ts := by
  unfold rowCounts
  rw [← List.map_take, List.take_range, Nat.min_eq_left h]

/-! ### Prefix sums -/

theorem length_prefixSums (l : List Nat) : (prefixSums l).length = l.length + 1 := by
  simp [prefixSums]

theorem prefixSums_getD (l : List Nat) (i : Nat) (h : i < l.length + 1) :
    (prefixSums l).getD i 0 = (l.take i).sum := by
  rw [List.getD_eq_getElem]
  · simp [prefixSums]
  · simpa [length_prefixSums] using h

/-! ### Structure of row-sorted triple lists -/

/-- A `lexLe`-sorted list is in particular sorted by row. -/
theorem pairwise_row_of_sorted {ts : List Triple} (h : List.Sorted lexLe ts) :
    ts.Pairwise fun t u => t.row ≤ u.row :=
  h.imp fun hl => by unfold lexLe at hl; omega

/-- In a row-sorted list, the entries of row `r` occupy the contiguous
segment starting after all entries of smaller rows. -/
theorem sorted_row_segment (r : Int) :
    ∀ ts : List Triple, ts.Pairwise (fun t u => t.row ≤ u.row) →
      ((ts.drop (ts.countP fun t => decide (t.row < r))).take
          (ts.countP fun t => decide (t.row = r))) =
        ts.filter fun t => decide (t.row = r)
  | [], _ => rfl
  | t :: ts, hp => by
    have hhead : ∀ u ∈ ts, t.row ≤ u.row := fun u hu => List.rel_of_pairwise_cons hp hu
    have htail : ts.Pairwise fun t u => t.row ≤ u.row := hp.of_cons
    rcases lt_trichotomy t.row r with h1 | h1 | h1
    · rw [List.countP_cons_of_pos (fun (u : Triple) => decide (u.row < r)) _
          (by simp only [decide_eq_true_eq]; omega),
        List.countP_cons_of_neg (fun (u : Triple) => decide (u.row = r)) _
          (by simp only [decide_eq_true_eq]; omega),
        List.filter_cons_of_neg (by simp only [decide_eq_true_eq]; omega),
        List.drop_succ_cons]
      exact sorted_row_segment r ts htail
    · have hz : (ts.countP fun u => decide (u.row < r)) = 0 := by
        rw [List.countP_eq_zero]
        intro u hu
        have := hhead u hu
        simp only [decide_eq_true_eq]
        omega
      rw [List.countP_cons_of_neg (fun (u : Triple) => decide (u.row < r)) _
          (by simp only [decide_eq_true_eq]; omega),
        List.countP_cons_of_pos (fun (u : Triple) => decide (u.row = r)) _
          (by simp only [decide_eq_true_eq]; omega),
        List.filter_cons_of_pos (by simp only [decide_eq_true_eq]; omega),
        hz, List.drop_zero, List.take_succ_cons]
      have := sorted_row_segment r ts htail
      rw [hz, List.drop_zero] at this
      rw [this]
    · have hall : ∀ u ∈ t :: ts, r < u.row := by
        intro u hu
        rcases List.mem_cons.mp hu with rfl | hu
        · exact h1
        · exact lt_of_lt_of_le h1 (hhead u hu)
      have hz1 : ((t :: ts).countP fun u => decide (u.row < r)) = 0 := by
        rw [List.countP_eq_zero]
        intro u hu
        have := hall u hu
        simp only [decide_eq_true_eq]
        omega
      have hz2 : ((t :: ts).countP fun u => decide (u.row = r)) = 0 := by
        rw [List.countP_eq_zero]
        intro u hu
        have := hall u hu
        simp only [decide_eq_true_eq]
        omega
      have hf : ((t :: ts).filter fun u => decide (u.row = r)) = [] := by
        rw [List.filter_eq_nil_iff]
        intro u hu
        have := hall u hu
        simp only [decide_eq_true_eq]
        omega
      rw [hz1, hz2, hf, List.drop_zero, List.take_zero]

/-- A row-sorted list is its below-`c` entries followed by its remaining
entries. -/
theorem sorted_filter_lt_append (c : Int) :
    ∀ ts : List Triple, ts.Pairwise (fun t u => t.row ≤ u.row) →
      (ts.filter fun t => decide (t.row < c)) ++ (ts.filter fun t => decide (c ≤ t.row)) = ts
  | [], _ => rfl
  | t :: ts, hp => by
    have hhead : ∀ u ∈ ts, t.row ≤ u.row := fun u hu => List.rel_of_pairwise_cons hp hu
    have htail : ts.Pairwise fun t u => t.row ≤ u.row := hp.of_cons
    by_cases h1 : t.row < c
    · rw [List.filter_cons_of_pos (by simp only [decide_eq_true_eq]; omega),
        List.filter_cons_of_neg (by simp only [decide_eq_true_eq]; omega)]
      rw [List.cons_append, sorted_filter_lt_append c ts htail]
    · have hz : ((t :: ts).filter fun u => decide (u.row < c)) = [] := by
        rw [List.filter_eq_nil_iff]
        intro u hu
        rcases List.mem_cons.mp hu with rfl | hu
        · simp only [decide_eq_true_eq]; omega
        · have := hhead u hu
          simp only [decide_eq_true_eq]
          omega
      have hs : ((t :: ts).filter fun u => decide (c ≤ u.row)) = t :: ts := by
        rw [List.filter_eq_self]
        intro u hu
        rcases List.mem_cons.mp hu with rfl | hu
        · simp only [decide_eq_true_eq]; omega
        · have := hhead u hu
          simp only [decide_eq_true_eq]
          omega
      rw [hz, hs, List.nil_append]

/-- A row-sorted list with all rows in `[0, n)` is the concatenation of its
per-row groups in row order. -/
theorem flatMap_range_filter_row :
    ∀ (n : Nat) (ts : List Triple), ts.Pairwise (fun t u => t.row ≤ u.row) →
      (∀ t ∈ ts, 0 ≤ t.row ∧ t.row < (n : Int)) →
      ((List.range n).flatMap fun (r : Nat) => ts.filter fun t => decide (t.row = (r : Int))) = ts
  | 0, ts, _, hr => by
    cases ts with
    | nil => rfl
    | cons t ts =>
      have := hr t (List.mem_cons_self t ts)
      simp only [Nat.cast_zero] at this
      omega
  | n + 1, ts, hp, hr => by
    rw [List.range_succ, List.flatMap_append]
    have hsub : (ts.filter fun t => decide (t.row < (n : Int))).Pairwise
        fun t u => t.row ≤ u.row := hp.sublist (List.filter_sublist ts)
    have hrsub : ∀ t ∈ ts.filter fun t => decide (t.row < (n : Int)),
        0 ≤ t.row ∧ t.row < (n : Int) := by
      intro t ht
      have hm := List.of_mem_filter ht
      have := hr t (List.mem_of_mem_filter ht)
      simp only [decide_eq_true_eq] at hm
      omega
    have hstep : ∀ r : Nat, r < n →
        (ts.filter fun t => decide (t.row = (r : Int))) =
          (ts.filter fun t => decide (t.row < (n : Int))).filter
            fun t => decide (t.row = (r : Int)) := by
      intro r hrn
      rw [List.filter_filter]
      apply List.filter_congr
      intro t _
      by_cases h : t.row = (r : Int)
      · have : t.row < (n : Int) := by omega
        simp [h, this, hrn]
      · simp [h]
    have hmain : ((List.range n).flatMap fun (r : Nat) =>
        ts.filter fun t => decide (t.row = (r : Int))) =
        ts.filter fun t => decide (t.row < (n : Int)) := by
      calc ((List.range n).flatMap fun (r : Nat) =>
            ts.filter fun t => decide (t.row = (r : Int)))
          = (List.range n).flatMap fun (r : Nat) =>
              (ts.filter fun t => decide (t.row < (n : Int))).filter
                fun t => decide (t.row = (r : Int)) := by
            apply List.flatMap_congr
            intro r hrn
            exact hstep r (List.mem_range.mp hrn)
        _ = ts.filter fun t => decide (t.row < (n : Int)) :=
            flatMap_range_filter_row n _ hsub hrsub
    rw [hmain]
    simp only [List.flatMap_cons, List.flatMap_nil, List.append_nil]
    have hlast : (ts.filter fun t => decide (t.row = ((n : Nat) : Int))) =
        ts.filter fun t => decide ((n : Int) ≤ t.row) := by
      apply List.filter_congr
      intro t ht
      have := hr t ht
      by_cases h : t.row = (n : Int)
      · have h2 : (n : Int) ≤ t.row := le_of_eq h.symm
        simp [h, h2]
      · have h2 : ¬((n : Int) ≤ t.row) := by push_cast at this ⊢; omega
        simp [h, h2]
    rw [hlast, sorted_filter_lt_append (n : Int) ts hp]

/-! ### Decompressing the produced CSR arrays -/

/-- Decompressing the CSR arrays built from a row-sorted triple list with
rows in `[0, n)` returns exactly that list. -/
theorem decompress_sorted (n : Nat) (ts : List Triple)
    (hs : ts.Pairwise fun t u => t.row ≤ u.row)
    (hr : ∀ t ∈ ts, 0 ≤ t.row ∧ t.row < (n : Int)) :
    CSR.decompress
        ⟨prefixSums (rowCounts n ts), ts.map Triple.col, ts.map Triple.val⟩ = ts := by
  unfold CSR.decompress
  simp only [length_prefixSums, length_rowCounts, Nat.add_sub_cancel, List.zip_map']
  have hbody : ∀ r : Nat, r < n →
      ((((ts.map fun t => (t.col, t.val)).drop
            ((prefixSums (rowCounts n ts)).getD r 0)).take
          ((prefixSums (rowCounts n ts)).getD (r + 1) 0 -
            (prefixSums (rowCounts n ts)).getD r 0)).map
        fun p => (⟨(r : Int), p.1, p.2⟩ : Triple)) =
        ts.filter fun t => decide (t.row = (r : Int)) := by
    intro r hrn
    have hgd1 : (prefixSums (rowCounts n ts)).getD r 0 =
        ts.countP fun t => decide (0 ≤ t.row ∧ t.row < (r : Int)) := by
      rw [prefixSums_getD _ _ (by rw [length_rowCounts]; omega),
        take_rowCounts n r ts (by omega)]
      unfold rowCounts
      exact sum_range_countP ts r
    have hgd2 : (prefixSums (rowCounts n ts)).getD (r + 1) 0 =
        ts.countP fun t => decide (0 ≤ t.row ∧ t.row < ((r + 1 : Nat) : Int)) := by
      rw [prefixSums_getD _ _ (by rw [length_rowCounts]; omega),
        take_rowCounts n (r + 1) ts (by omega)]
      unfold rowCounts
      exact sum_range_countP ts (r + 1)
    have hcongr : (ts.countP fun t => decide (0 ≤ t.row ∧ t.row < (r : Int))) =
        ts.countP fun t => decide (t.row < (r : Int)) := by
      apply List.countP_congr
      intro t ht
      have := hr t ht
      simp only [decide_eq_true_eq]
      omega
    have hsplit := countP_row_split ts r
    have hsub : (prefixSums (rowCounts n ts)).getD (r + 1) 0 -
        (prefixSums (rowCounts n ts)).getD r 0 =
        ts.countP fun t => decide (t.row = (r : Int)) := by
      rw [hgd1, hgd2]
      omega
    rw [hsub, hgd1, hcongr, ← List.map_drop, ← List.map_take,
      sorted_row_segment (r : Int) ts hs, List.map_map]
    have : ∀ t ∈ ts.filter fun t => decide (t.row = (r : Int)),
        ((fun p => (⟨(r : Int), p.1, p.2⟩ : Triple)) ∘ fun t => (t.col, t.val)) t = id t := by
      intro t ht
      have hmem := List.of_mem_filter ht
      simp only [decide_eq_true_eq] at hmem
      simp only [Function.comp, id]
      cases t
      simp_all
    rw [List.map_congr_left this, List.map_id]
  calc ((List.range n).flatMap fun (r : Nat) =>
        ((((ts.map fun t => (t.col, t.val)).drop
              ((prefixSums (rowCounts n ts)).getD r 0)).take
            ((prefixSums (rowCounts n ts)).getD (r + 1) 0 -
              (prefixSums (rowCounts n ts)).getD r 0)).map
          fun p => (⟨(r : Int), p.1, p.2⟩ : Triple)))
      = (List.range n).flatMap fun (r : Nat) =>
          ts.filter fun t => decide (t.row = (r : Int)) := by
        apply List.flatMap_congr
        intro r hrn
        exact hbody r (List.mem_range.mp hrn)
    _ = ts := flatMap_range_filter_row n ts hs hr

/-! ### Transfer of the sort and range facts to the converter -/

theorem sortedTriples_perm (hb : HoppingBlocks) : hb.sortedTriples.Perm hb.flatten :=
  List.perm_insertionSort lexLe hb.flatten

theorem sortedTriples_sorted (hb : HoppingBlocks) : List.Sorted lexLe hb.sortedTriples :=
  List.sorted_insertionSort lexLe hb.flatten

/-- Every flattened entry of an in-range store has row and column in
`[0, num_sites)`. -/
theorem flatten_mem_range {hb : HoppingBlocks} (h : hb.coordsInRange) :
    ∀ t ∈ hb.flatten,
      0 ≤ t.row ∧ t.row < hb.num_sites ∧ 0 ≤ t.col ∧ t.col < hb.num_sites := by
  intro t ht
  obtain ⟨k, hk, _, hmem⟩ := mem_flattenFrom ht
  have hbm : hb.blocks.get ⟨k, hk⟩ ∈ hb.blocks := List.get_mem hb.blocks k hk
  have := h _ hbm _ hmem
  exact this

/-- Every sorted entry of an in-range store has row and column in
`[0, num_sites)`. -/
theorem sortedTriples_mem_range {hb : HoppingBlocks} (h : hb.coordsInRange) :
    ∀ t ∈ hb.sortedTriples,
      0 ≤ t.row ∧ t.row < hb.num_sites ∧ 0 ≤ t.col ∧ t.col < hb.num_sites := by
  intro t ht
  exact flatten_mem_range h t ((sortedTriples_perm hb).mem_iff.mp ht)

/-! ### Effect of appending into one block on the length sum -/

theorem sum_lengths_set (l : List Block) (k : Nat) (hk : k < l.length) (cs : List COO) :
    ((l.set k (l.get ⟨k, hk⟩ ++ cs)).map fun b => (b.length : Int)).sum =
      (l.map fun b => (b.length : Int)).sum + cs.length := by
  induction l generalizing k with
  | nil => simp at hk
  | cons b l ih =>
    cases k with
    | zero =>
      have hb0 : (b :: l).get ⟨0, hk⟩ = b := rfl
      simp only [hb0, List.set_cons_zero, List.map_cons, List.sum_cons, List.length_append]
      push_cast
      ring
    | succ k =>
      have hk2 : k < l.length := by simpa using hk
      simp only [List.get_cons_succ, List.set_cons_succ, List.map_cons, List.sum_cons, ih k hk2]
      ring

/-! ### Iterator traversal -/

theorem traverseFrom_spec (bs : List Block) (start : Int) :
    (traverseFrom bs start).length = bs.length ∧
    ∀ i, ∀ h : i < bs.length,
      (traverseFrom bs start)[i]? = some (start + i, bs.get ⟨i, h⟩) := by
  induction bs generalizing start with
  | nil => exact ⟨rfl, fun i h => by simp at h⟩
  | cons b bs ih =>
    refine ⟨by simp only [traverseFrom, List.length_cons, (ih (start + 1)).1], ?_⟩
    intro i h
    cases i with
    | zero => simp [traverseFrom]
    | succ i =>
      have h2 : i < bs.length := by simpa using h
      have := (ih (start + 1)).2 i h2
      simp only [traverseFrom, List.getElem?_cons_succ, this, List.get_cons_succ]
      congr 2
      push_cast
      ring

/-- C7: traversing a store from `begin()` to `end()` yields exactly
`num_families` elements; the `i`-th carries `family_id() = i` and
`coordinates()` equal to the `i`-th block.  (Traversal is a pure function
of the store in this embedding, so it cannot mutate the store, and
repeating it trivially yields the same sequence.) -/
theorem traverse_enumerates (hb : HoppingBlocks) :
    hb.traverse.length = hb.blocks.length ∧
    ∀ i, ∀ h : i < hb.blocks.length,
      hb.traverse[i]? = some ((i : Int), hb.blocks.get ⟨i, h⟩) := by
  have hs := traverseFrom_spec hb.blocks 0
  refine ⟨hs.1, fun i h => ?_⟩
  have := hs.2 i h
  simpa using this

/-- C7 witness: the sample store traverses to its two (id, block) views. -/
theorem traverse_enumerates_witness :
    sampleHB.traverse.length = sampleHB.blocks.length ∧
    sampleHB.traverse[1]? = some ((1 : Int), sampleHB.blocks.get ⟨1, by decide⟩) :=
  ⟨(traverse_enumerates sampleHB).1, (traverse_enumerates sampleHB).2 1 (by decide)⟩

/-- C8: `add(family_id, row, col)` fails exactly when `family_id` is
outside `[0, num_families)` — for any `row`/`col`, which are never
validated — and for an in-range `family_id` it appends the pair to that
family's block. -/
theorem add_family_check (hb : HoppingBlocks) (family_id : Int) :
    (∀ row col : Int,
      hb.add family_id row col = none ↔
        ¬(0 ≤ family_id ∧ family_id < (hb.blocks.length : Int))) ∧
    (∀ row col : Int, 0 ≤ family_id → family_id < (hb.blocks.length : Int) →
      ∃ hb2, hb.add family_id row col = some hb2 ∧
        ∃ hlt : family_id.toNat < hb.blocks.length,
          hb2.blocks = hb.blocks.set family_id.toNat
            (hb.blocks.get ⟨family_id.toNat, hlt⟩ ++ [COO.make row col])) := by
  constructor
  · intro row col
    unfold HoppingBlocks.add
    by_cases h : 0 ≤ family_id ∧ family_id.toNat < hb.blocks.length
    · rw [dif_pos h]
      simp only [false_iff, reduceCtorEq]
      omega
    · rw [dif_neg h]
      simp only [true_iff]
      omega
  · intro row col h0 h1
    have h : 0 ≤ family_id ∧ family_id.toNat < hb.blocks.length := by omega
    refine ⟨_, by unfold HoppingBlocks.add; rw [dif_pos h], h.2, rfl⟩

/-- C8 witness: on the sample store, family 2 is rejected and family 1 is
appended to, regardless of the (out-of-range) coordinates. -/
theorem add_family_check_witness :
    (sampleHB.add 2 9 9 = none ↔
      ¬(0 ≤ (2 : Int) ∧ (2 : Int) < (sampleHB.blocks.length : Int))) ∧
    ∃ hb2, sampleHB.add 1 9 9 = some hb2 ∧
      ∃ hlt : (1 : Int).toNat < sampleHB.blocks.length,
        hb2.blocks = sampleHB.blocks.set (1 : Int).toNat
          (sampleHB.blocks.get ⟨(1 : Int).toNat, hlt⟩ ++ [COO.make 9 9]) :=
  ⟨(add_family_check sampleHB 2).1 9 9,
    (add_family_check sampleHB 1).2 9 9 (by decide) (by decide)⟩

/-- C9: for an in-range `family_id`, `add` appends exactly the converted
pair at the end of that family's block, leaves every other block and
`num_sites` unchanged, and increases `nnz()` by one. -/
theorem add_frame (hb : HoppingBlocks) (family_id row col : Int)
    (h0 : 0 ≤ family_id) (h1 : family_id < (hb.blocks.length : Int)) :
    ∃ hb2, hb.add family_id row col = some hb2 ∧
      hb2.num_sites = hb.num_sites ∧
      hb2.blocks.length = hb.blocks.length ∧
      (∃ hlt2 : family_id.toNat < hb2.blocks.length,
        ∃ hlt : family_id.toNat < hb.blocks.length,
          hb2.blocks.get ⟨family_id.toNat, hlt2⟩ =
            hb.blocks.get ⟨family_id.toNat, hlt⟩ ++ [COO.make row col]) ∧
      (∀ j, j ≠ family_id.toNat → ∀ hj2 : j < hb2.blocks.length,
        ∀ hj : j < hb.blocks.length,
          hb2.blocks.get ⟨j, hj2⟩ = hb.blocks.get ⟨j, hj⟩) ∧
      hb2.nnz = hb.nnz + 1 := by
  have h : 0 ≤ family_id ∧ family_id.toNat < hb.blocks.length := by omega
  refine ⟨{ hb with
      blocks := hb.blocks.set family_id.toNat
        (hb.blocks.get ⟨family_id.toNat, h.2⟩ ++ [COO.make row col]),
      caps := growCap hb.caps family_id.toNat
        ((hb.blocks.get ⟨family_id.toNat, h.2⟩).length + 1) },
    ?_, rfl, by simp, ?_, ?_, ?_⟩
  · unfold HoppingBlocks.add
    rw [dif_pos h]
  · refine ⟨by simpa using h.2, h.2, ?_⟩
    simp [List.get_eq_getElem]
  · intro j hne hj2 hj
    simp [List.get_eq_getElem, List.getElem_set_ne (Ne.symm hne)]
  · show ((hb.blocks.set family_id.toNat
        (hb.blocks.get ⟨family_id.toNat, h.2⟩ ++ [COO.make row col])).map
          fun b => (b.length : Int)).sum = hb.nnz + 1
    rw [sum_lengths_set hb.blocks family_id.toNat h.2 [COO.make row col]]
    simp [HoppingBlocks.nnz]

/-- C9 witness: adding (4, 0) to family 0 of the sample store. -/
theorem add_frame_witness :
    ∃ hb2, sampleHB.add 0 4 0 = some hb2 ∧
      hb2.num_sites = sampleHB.num_sites ∧
      hb2.blocks.length = sampleHB.blocks.length ∧
      (∃ hlt2 : (0 : Int).toNat < hb2.blocks.length,
        ∃ hlt : (0 : Int).toNat < sampleHB.blocks.length,
          hb2.blocks.get ⟨(0 : Int).toNat, hlt2⟩ =
            sampleHB.blocks.get ⟨(0 : Int).toNat, hlt⟩ ++ [COO.make 4 0]) ∧
      (∀ j, j ≠ (0 : Int).toNat → ∀ hj2 : j < hb2.blocks.length,
        ∀ hj : j < sampleHB.blocks.length,
          hb2.blocks.get ⟨j, hj2⟩ = sampleHB.blocks.get ⟨j, hj⟩) ∧
      hb2.nnz = sampleHB.nnz + 1 :=
  add_frame sampleHB 0 4 0 (by decide) (by decide)

/-- C10: `add` receives `idx_t` coordinates and the `COO` constructor
stores them through an unchecked `static_cast<storage_idx_t>`: any value
representable in the 32-bit storage type is stored unchanged, any other
value is reduced to the storage width (two's complement residue modulo
`2^32`), and no error is reported in either case. -/
theorem coo_make_cast (row col : Int) :
    ((-2 ^ 31 ≤ row ∧ row < 2 ^ 31) → (COO.make row col).row = row) ∧
    ((-2 ^ 31 ≤ col ∧ col < 2 ^ 31) → (COO.make row col).col = col) ∧
    (COO.make row col).row % 2 ^ storageWidth = row % 2 ^ storageWidth ∧
    (COO.make row col).col % 2 ^ storageWidth = col % 2 ^ storageWidth ∧
    -2 ^ 31 ≤ (COO.make row col).row ∧ (COO.make row col).row < 2 ^ 31 ∧
    -2 ^ 31 ≤ (COO.make row col).col ∧ (COO.make row col).col < 2 ^ 31 := by
  unfold COO.make storageWidth
  exact ⟨fun h => wrapStorage_of_mem_range h.1 h.2,
    fun h => wrapStorage_of_mem_range h.1 h.2,
    wrapStorage_emod row, wrapStorage_emod col,
    (wrapStorage_mem_range row).1, (wrapStorage_mem_range row).2,
    (wrapStorage_mem_range col).1, (wrapStorage_mem_range col).2⟩

/-- C10 witness: an in-range row is stored unchanged while an out-of-range
column keeps only its residue modulo `2^32` and lands back in range. -/
theorem coo_make_cast_witness :
    (COO.make 7 (2 ^ 31 + 5)).row = 7 ∧
    (COO.make 7 (2 ^ 31 + 5)).col % 2 ^ storageWidth =
      (2 ^ 31 + 5) % 2 ^ storageWidth ∧
    -2 ^ 31 ≤ (COO.make 7 (2 ^ 31 + 5)).col ∧
    (COO.make 7 (2 ^ 31 + 5)).col < 2 ^ 31 :=
  ⟨(coo_make_cast 7 (2 ^ 31 + 5)).1 (by norm_num),
    (coo_make_cast 7 (2 ^ 31 + 5)).2.2.2.1,
    (coo_make_cast 7 (2 ^ 31 + 5)).2.2.2.2.2.2.1,
    (coo_make_cast 7 (2 ^ 31 + 5)).2.2.2.2.2.2.2⟩

/-! ### The effect of a successful `add` -/

theorem set_get_id (l : List Block) (k : Nat) (hk : k < l.length) :
    l.set k (l.get ⟨k, hk⟩) = l := by
  induction l generalizing k with
  | nil => simp at hk
  | cons b l ih =>
    cases k with
    | zero => rfl
    | succ k =>
      have hk2 : k < l.length := by simpa using hk
      show b :: l.set k (l.get ⟨k, hk2⟩) = b :: l
      rw [ih k hk2]

theorem add_effect (hb : HoppingBlocks) (family_id row col : Int)
    (h : 0 ≤ family_id ∧ family_id.toNat < hb.blocks.length) :
    ∃ hb2, hb.add family_id row col = some hb2 ∧
      hb2.num_sites = hb.num_sites ∧
      hb2.blocks = hb.blocks.set family_id.toNat
        (hb.blocks.get ⟨family_id.toNat, h.2⟩ ++ [COO.make row col]) ∧
      hb2.nnz = hb.nnz + 1 ∧
      hb2.blocks.length = hb.blocks.length := by
  refine ⟨{ hb with
      blocks := hb.blocks.set family_id.toNat
        (hb.blocks.get ⟨family_id.toNat, h.2⟩ ++ [COO.make row col]),
      caps := growCap hb.caps family_id.toNat
        ((hb.blocks.get ⟨family_id.toNat, h.2⟩).length + 1) },
    ?_, rfl, rfl, ?_, by simp⟩
  · unfold HoppingBlocks.add
    rw [dif_pos h]
  · show ((hb.blocks.set family_id.toNat
        (hb.blocks.get ⟨family_id.toNat, h.2⟩ ++ [COO.make row col])).map
          fun b => (b.length : Int)).sum = hb.nnz + 1
    rw [sum_lengths_set hb.blocks family_id.toNat h.2 [COO.make row col]]
    simp [HoppingBlocks.nnz]

/-- A sequence of `add` calls whose family ids are all in range succeeds
and grows `nnz` by the number of calls. -/
theorem runAdds_nnz :
    ∀ (ops : List (Int × Int × Int)) (s : HoppingBlocks),
      (∀ op ∈ ops, 0 ≤ op.1 ∧ op.1 < (s.blocks.length : Int)) →
      ∃ s2, s.runAdds ops = some s2 ∧ s2.nnz = s.nnz + ops.length ∧
        s2.blocks.length = s.blocks.length
  | [], s, _ => ⟨s, rfl, by simp, rfl⟩
  | op :: ops, s, hv => by
    have hh := hv op (List.mem_cons_self op ops)
    have h : 0 ≤ op.1 ∧ op.1.toNat < s.blocks.length := by omega
    obtain ⟨s1, hadd, _, _, hnnz1, hlen1⟩ := add_effect s op.1 op.2.1 op.2.2 h
    have hv1 : ∀ p ∈ ops, 0 ≤ p.1 ∧ p.1 < (s1.blocks.length : Int) := by
      intro p hp
      have := hv p (List.mem_cons_of_mem op hp)
      rw [hlen1]
      exact this
    obtain ⟨s2, hrun, hnnz2, hlen2⟩ := runAdds_nnz ops s1 hv1
    refine ⟨s2, ?_, ?_, by rw [hlen2, hlen1]⟩
    · unfold HoppingBlocks.runAdds at hrun ⊢
      rw [List.foldlM_cons]
      show (s.add op.1 op.2.1 op.2.2).bind _ = some s2
      rw [hadd]
      exact hrun
    · rw [hnnz2, hnnz1]
      simp only [List.length_cons]
      push_cast
      ring

/-- C3: `nnz()` is the sum of all block lengths, and after any sequence of
in-range `add` calls on a freshly constructed store it equals the number of
pairs added. -/
theorem nnz_total (hb : HoppingBlocks) :
    hb.nnz = (hb.blocks.map fun b => (b.length : Int)).sum ∧
    ∀ (num_sites num_families : Int) (ops : List (Int × Int × Int)),
      (∀ op ∈ ops, 0 ≤ op.1 ∧ op.1 < num_families) →
      ∃ hb2, (HoppingBlocks.init num_sites num_families).runAdds ops = some hb2 ∧
        hb2.nnz = (ops.length : Int) := by
  refine ⟨rfl, ?_⟩
  intro ns nf ops hv
  have hlen : (HoppingBlocks.init ns nf).blocks.length = nf.toNat := by
    simp [HoppingBlocks.init]
  have hv2 : ∀ op ∈ ops, 0 ≤ op.1 ∧ op.1 < ((HoppingBlocks.init ns nf).blocks.length : Int) := by
    intro op hop
    have := hv op hop
    rw [hlen]
    omega
  obtain ⟨hb2, h1, h2, _⟩ := runAdds_nnz ops _ hv2
  refine ⟨hb2, h1, ?_⟩
  rw [h2]
  have hz : (HoppingBlocks.init ns nf).nnz = 0 := by
    simp [HoppingBlocks.nnz, HoppingBlocks.init]
  rw [hz]
  ring

/-- C3 witness: three adds into a fresh 2-family store give `nnz() = 3`. -/
theorem nnz_total_witness :
    sampleHB.nnz = (sampleHB.blocks.map fun b => (b.length : Int)).sum ∧
    ∃ hb2, (HoppingBlocks.init 5 2).runAdds [(0, 0, 1), (1, 2, 0), (0, 1, 2)] = some hb2 ∧
      hb2.nnz = (([(0, 0, 1), (1, 2, 0), (0, 1, 2)] : List (Int × Int × Int)).length : Int) :=
  ⟨(nnz_total sampleHB).1,
    (nnz_total sampleHB).2 5 2 [(0, 0, 1), (1, 2, 0), (0, 1, 2)] (by decide)⟩

/-! ### `append` versus repeated `add` -/

theorem get_set_len (l : List Block) (k : Nat) (hk : k < l.length) (bnew : Block)
    (hk2 : k < (l.set k bnew).length) :
    (l.set k bnew).get ⟨k, hk2⟩ = bnew := by
  simp [List.get_eq_getElem]

theorem nnz_congr {h1 h2 : HoppingBlocks} (h : h1.blocks = h2.blocks) :
    h1.nnz = h2.nnz := by
  unfold HoppingBlocks.nnz
  rw [h]

theorem to_csr_congr {h1 h2 : HoppingBlocks} (hn : h1.num_sites = h2.num_sites)
    (h : h1.blocks = h2.blocks) : h1.to_csr = h2.to_csr := by
  unfold HoppingBlocks.to_csr HoppingBlocks.sortedTriples HoppingBlocks.flatten
  rw [hn, h]

/-- Folding single `add` calls over zipped coordinate arrays builds the
same block as one bulk append. -/
theorem addSeq_spec :
    ∀ (rows cols : List Int) (hb : HoppingBlocks) (family_id : Int)
      (h : 0 ≤ family_id ∧ family_id.toNat < hb.blocks.length),
      rows.length = cols.length →
      ∃ hb2, hb.addSeq family_id (rows.zip cols) = some hb2 ∧
        hb2.num_sites = hb.num_sites ∧
        hb2.blocks = hb.blocks.set family_id.toNat
          (hb.blocks.get ⟨family_id.toNat, h.2⟩ ++ List.zipWith COO.make rows cols)
  | [], cols, hb, fid, h, hlen => by
    have hc : cols = [] := List.eq_nil_of_length_eq_zero hlen.symm
    subst hc
    refine ⟨hb, rfl, rfl, ?_⟩
    rw [List.zipWith_nil_right, List.append_nil, set_get_id]
  | r :: rows, cols, hb, fid, h, hlen => by
    cases cols with
    | nil => simp at hlen
    | cons c cols =>
      obtain ⟨s1, hadd, hns1, hbl1, _, hlen1⟩ := add_effect hb fid r c h
      have h1 : 0 ≤ fid ∧ fid.toNat < s1.blocks.length := ⟨h.1, by rw [hlen1]; exact h.2⟩
      have hlen2 : rows.length = cols.length := by simpa using hlen
      obtain ⟨s2, hseq, hns2, hbl2⟩ := addSeq_spec rows cols s1 fid h1 hlen2
      refine ⟨s2, ?_, by rw [hns2, hns1], ?_⟩
      · unfold HoppingBlocks.addSeq at hseq ⊢
        rw [List.zip_cons_cons, List.foldlM_cons]
        show (hb.add fid r c).bind _ = some s2
        rw [hadd]
        exact hseq
      · have hget : s1.blocks.get ⟨fid.toNat, h1.2⟩ =
            hb.blocks.get ⟨fid.toNat, h.2⟩ ++ [COO.make r c] := by
          have := h.2
          rw [List.get_eq_getElem, List.get_eq_getElem]
          simp only [hbl1]
          rw [List.getElem_set_self]
          rfl
        rw [hbl2, hget, hbl1, List.set_set, List.zipWith_cons_cons, ← List.append_cons]

/-- C4: with equal-length arrays of length k and an in-range family id,
`append(family_id, rows, cols)` succeeds, grows that family's block by
exactly k, and leaves the store observably equal (blocks, `num_sites`,
`nnz()`, `to_csr()`) to k sequential `add(family_id, rows[i], cols[i])`
calls performed in order. -/
theorem append_eq_adds (hb : HoppingBlocks) (family_id : Int) (rows cols : List Int)
    (hf : 0 ≤ family_id ∧ family_id < (hb.blocks.length : Int))
    (hlen : rows.length = cols.length) :
    ∃ hb1 hb2,
      hb.append family_id rows cols = some hb1 ∧
      hb.addSeq family_id (rows.zip cols) = some hb2 ∧
      (∃ hlt1 : family_id.toNat < hb1.blocks.length,
        ∃ hlt : family_id.toNat < hb.blocks.length,
          (hb1.blocks.get ⟨family_id.toNat, hlt1⟩).length =
            (hb.blocks.get ⟨family_id.toNat, hlt⟩).length + rows.length) ∧
      hb1.blocks = hb2.blocks ∧ hb1.num_sites = hb2.num_sites ∧
      hb1.nnz = hb2.nnz ∧ hb1.to_csr = hb2.to_csr := by
  have h : 0 ≤ family_id ∧ family_id.toNat < hb.blocks.length := by omega
  obtain ⟨hb2, hseq, hns2, hbl2⟩ := addSeq_spec rows cols hb family_id h hlen
  refine ⟨{ hb with
      blocks := hb.blocks.set family_id.toNat
        (hb.blocks.get ⟨family_id.toNat, h.2⟩ ++ List.zipWith COO.make rows cols),
      caps := growCap hb.caps family_id.toNat
        ((hb.blocks.get ⟨family_id.toNat, h.2⟩).length + min rows.length cols.length) },
    hb2, ?_, hseq, ?_, ?_, ?_, ?_, ?_⟩
  · unfold HoppingBlocks.append
    rw [dif_pos h]
  · refine ⟨by simpa using h.2, h.2, ?_⟩
    show ((hb.blocks.set family_id.toNat
        (hb.blocks.get ⟨family_id.toNat, h.2⟩ ++ List.zipWith COO.make rows cols)).get
          ⟨family_id.toNat, by simpa using h.2⟩).length =
      (hb.blocks.get ⟨family_id.toNat, h.2⟩).length + rows.length
    rw [get_set_len hb.blocks family_id.toNat h.2 _ (by simpa using h.2)]
    rw [List.length_append, List.length_zipWith, hlen, Nat.min_self]
  · rw [hbl2]
  · rw [hns2]
  · exact nnz_congr (by rw [hbl2])
  · exact to_csr_congr (by rw [hns2]) (by rw [hbl2])

/-- C4 witness: appending two pairs to family 0 of the sample store matches
two sequential adds. -/
theorem append_eq_adds_witness :
    ∃ hb1 hb2,
      sampleHB.append 0 [3, 4] [2, 0] = some hb1 ∧
      sampleHB.addSeq 0 ([3, 4].zip [2, 0]) = some hb2 ∧
      (∃ hlt1 : (0 : Int).toNat < hb1.blocks.length,
        ∃ hlt : (0 : Int).toNat < sampleHB.blocks.length,
          (hb1.blocks.get ⟨(0 : Int).toNat, hlt1⟩).length =
            (sampleHB.blocks.get ⟨(0 : Int).toNat, hlt⟩).length +
              ([3, 4] : List Int).length) ∧
      hb1.blocks = hb2.blocks ∧ hb1.num_sites = hb2.num_sites ∧
      hb1.nnz = hb2.nnz ∧ hb1.to_csr = hb2.to_csr :=
  append_eq_adds sampleHB 0 [3, 4] [2, 0] (by decide) (by decide)

/-! ### `reserve` only touches capacity -/

theorem append_effect (hb : HoppingBlocks) (family_id : Int) (rows cols : List Int)
    (h : 0 ≤ family_id ∧ family_id.toNat < hb.blocks.length) :
    ∃ hb2, hb.append family_id rows cols = some hb2 ∧
      hb2.num_sites = hb.num_sites ∧
      hb2.blocks = hb.blocks.set family_id.toNat
        (hb.blocks.get ⟨family_id.toNat, h.2⟩ ++ List.zipWith COO.make rows cols) := by
  refine ⟨{ hb with
      blocks := hb.blocks.set family_id.toNat
        (hb.blocks.get ⟨family_id.toNat, h.2⟩ ++ List.zipWith COO.make rows cols),
      caps := growCap hb.caps family_id.toNat
        ((hb.blocks.get ⟨family_id.toNat, h.2⟩).length + min rows.length cols.length) },
    ?_, rfl, rfl⟩
  unfold HoppingBlocks.append
  rw [dif_pos h]

theorem add_none_iff (hb : HoppingBlocks) (family_id row col : Int) :
    hb.add family_id row col = none ↔
      ¬(0 ≤ family_id ∧ family_id.toNat < hb.blocks.length) := by
  unfold HoppingBlocks.add
  by_cases h : 0 ≤ family_id ∧ family_id.toNat < hb.blocks.length
  · rw [dif_pos h]
    simp [h]
  · rw [dif_neg h]
    simp [h]

theorem append_none_iff (hb : HoppingBlocks) (family_id : Int) (rows cols : List Int) :
    hb.append family_id rows cols = none ↔
      ¬(0 ≤ family_id ∧ family_id.toNat < hb.blocks.length) := by
  unfold HoppingBlocks.append
  by_cases h : 0 ≤ family_id ∧ family_id.toNat < hb.blocks.length
  · rw [dif_pos h]
    simp [h]
  · rw [dif_neg h]
    simp [h]

theorem add_content_congr (s1 s2 : HoppingBlocks) (hn : s1.num_sites = s2.num_sites)
    (hb : s1.blocks = s2.blocks) (f r c : Int) :
    (s1.add f r c).map HoppingBlocks.content = (s2.add f r c).map HoppingBlocks.content := by
  by_cases hc : 0 ≤ f ∧ f.toNat < s1.blocks.length
  · have hc2 : 0 ≤ f ∧ f.toNat < s2.blocks.length := by rw [← hb]; exact hc
    obtain ⟨t1, e1, en1, eb1, _, _⟩ := add_effect s1 f r c hc
    obtain ⟨t2, e2, en2, eb2, _, _⟩ := add_effect s2 f r c hc2
    have hget : s1.blocks.get ⟨f.toNat, hc.2⟩ = s2.blocks.get ⟨f.toNat, hc2.2⟩ := by
      rw [List.get_eq_getElem, List.get_eq_getElem]
      simp only [hb]
    rw [e1, e2]
    simp only [Option.map_some']
    unfold HoppingBlocks.content
    rw [en1, en2, eb1, eb2, hget, hb, hn]
  · have hc2 : ¬(0 ≤ f ∧ f.toNat < s2.blocks.length) := by rw [← hb]; exact hc
    rw [(add_none_iff s1 f r c).mpr hc, (add_none_iff s2 f r c).mpr hc2]

theorem append_content_congr (s1 s2 : HoppingBlocks) (hn : s1.num_sites = s2.num_sites)
    (hb : s1.blocks = s2.blocks) (f : Int) (rows cols : List Int) :
    (s1.append f rows cols).map HoppingBlocks.content =
      (s2.append f rows cols).map HoppingBlocks.content := by
  by_cases hc : 0 ≤ f ∧ f.toNat < s1.blocks.length
  · have hc2 : 0 ≤ f ∧ f.toNat < s2.blocks.length := by rw [← hb]; exact hc
    obtain ⟨t1, e1, en1, eb1⟩ := append_effect s1 f rows cols hc
    obtain ⟨t2, e2, en2, eb2⟩ := append_effect s2 f rows cols hc2
    have hget : s1.blocks.get ⟨f.toNat, hc.2⟩ = s2.blocks.get ⟨f.toNat, hc2.2⟩ := by
      rw [List.get_eq_getElem, List.get_eq_getElem]
      simp only [hb]
    rw [e1, e2]
    simp only [Option.map_some']
    unfold HoppingBlocks.content
    rw [en1, en2, eb1, eb2, hget, hb, hn]
  · have hc2 : ¬(0 ≤ f ∧ f.toNat < s2.blocks.length) := by rw [← hb]; exact hc
    rw [(append_none_iff s1 f rows cols).mpr hc, (append_none_iff s2 f rows cols).mpr hc2]

/-- States with the same observable content stay observably equal under any
sequence of `add`/`append` calls. -/
theorem runOps_content_congr :
    ∀ (ops : List StoreOp) (s1 s2 : HoppingBlocks),
      s1.num_sites = s2.num_sites → s1.blocks = s2.blocks →
      (s1.runOps ops).map HoppingBlocks.content = (s2.runOps ops).map HoppingBlocks.content
  | [], s1, s2, hn, hb => by
    unfold HoppingBlocks.runOps HoppingBlocks.content
    simp [hn, hb]
  | op :: ops, s1, s2, hn, hb => by
    have hstep : ∀ t1 t2 : HoppingBlocks,
        (match op with
          | .addOp f r c => s1.add f r c
          | .appendOp f rs cs => s1.append f rs cs) = some t1 →
        (match op with
          | .addOp f r c => s2.add f r c
          | .appendOp f rs cs => s2.append f rs cs) = some t2 →
        t1.content = t2.content := by
      intro t1 t2 e1 e2
      cases op with
      | addOp f r c =>
        have e3 : s1.add f r c = some t1 := e1
        have e4 : s2.add f r c = some t2 := e2
        have := add_content_congr s1 s2 hn hb f r c
        rw [e3, e4] at this
        simpa using this
      | appendOp f rs cs =>
        have e3 : s1.append f rs cs = some t1 := e1
        have e4 : s2.append f rs cs = some t2 := e2
        have := append_content_congr s1 s2 hn hb f rs cs
        rw [e3, e4] at this
        simpa using this
    have hnone : (match op with
          | .addOp f r c => s1.add f r c
          | .appendOp f rs cs => s1.append f rs cs) = none ↔
        (match op with
          | .addOp f r c => s2.add f r c
          | .appendOp f rs cs => s2.append f rs cs) = none := by
      cases op with
      | addOp f r c =>
        rw [add_none_iff, add_none_iff, hb]
      | appendOp f rs cs =>
        rw [append_none_iff, append_none_iff, hb]
    unfold HoppingBlocks.runOps
    rw [List.foldlM_cons, List.foldlM_cons]
    cases e1 : (match op with
        | .addOp f r c => s1.add f r c
        | .appendOp f rs cs => s1.append f rs cs) with
    | none =>
      rw [hnone] at e1
      rw [e1]
    | some t1 =>
      cases e2 : (match op with
          | .addOp f r c => s2.add f r c
          | .appendOp f rs cs => s2.append f rs cs) with
      | none =>
        rw [← hnone] at e2
        rw [e1] at e2
        cases e2
      | some t2 =>
        have hcontent := hstep t1 t2 e1 e2
        have hn2 : t1.num_sites = t2.num_sites := congrArg Prod.fst hcontent
        have hb2 : t1.blocks = t2.blocks := congrArg Prod.snd hcontent
        show (t1.runOps ops).map HoppingBlocks.content =
          (t2.runOps ops).map HoppingBlocks.content
        exact runOps_content_congr ops t1 t2 hn2 hb2

/-- C6: `reserve` is advisory only: it leaves the blocks, `nnz()` and the
`to_csr()` output unchanged, and any subsequent sequence of `add`/`append`
calls produces exactly the same observable content as without the
`reserve` call. -/
theorem reserve_advisory (hb : HoppingBlocks) (counts : List Int) :
    (hb.reserve counts).get_blocks = hb.get_blocks ∧
    (hb.reserve counts).nnz = hb.nnz ∧
    (hb.reserve counts).to_csr = hb.to_csr ∧
    ∀ ops : List StoreOp,
      ((hb.reserve counts).runOps ops).map HoppingBlocks.content =
        (hb.runOps ops).map HoppingBlocks.content :=
  ⟨rfl, rfl, rfl, fun ops => runOps_content_congr ops (hb.reserve counts) hb rfl rfl⟩

/-! ### The row-pointer array -/

theorem prefixSums_getElem (l : List Nat) (i : Nat) (h : i < (prefixSums l).length) :
    (prefixSums l).get ⟨i, h⟩ = (l.take i).sum := by
  have hi : i < l.length + 1 := by simpa [length_prefixSums] using h
  simp [prefixSums, List.get_eq_getElem]

theorem sum_take_mono (l : List Nat) (i : Nat) :
    (l.take i).sum ≤ (l.take (i + 1)).sum := by
  rw [List.take_succ, List.sum_append]
  exact Nat.le_add_right _ _

/-- C2: for a store whose coordinates lie in `[0, num_sites)`, the `to_csr`
row-pointer array has length `num_sites + 1`, is non-decreasing, and its
last element equals `nnz()`. -/
theorem to_csr_indptr (hb : HoppingBlocks) (hr : hb.coordsInRange)
    (hn : 0 ≤ hb.num_sites) :
    (((hb.to_csr).indptr.length : Int) = hb.num_sites + 1) ∧
    (∀ i, ∀ h : i + 1 < (hb.to_csr).indptr.length,
      (hb.to_csr).indptr.get ⟨i, by omega⟩ ≤ (hb.to_csr).indptr.get ⟨i + 1, h⟩) ∧
    ∃ m, (hb.to_csr).indptr.getLast? = some m ∧ (m : Int) = hb.nnz := by
  have hcsr : (hb.to_csr).indptr =
      prefixSums (rowCounts hb.num_sites.toNat hb.sortedTriples) := rfl
  have hlen : (hb.to_csr).indptr.length = hb.num_sites.toNat + 1 := by
    rw [hcsr, length_prefixSums, length_rowCounts]
  refine ⟨by rw [hlen]; omega, ?_, ?_⟩
  · intro i h
    have h1 : i < (hb.to_csr).indptr.length := by omega
    calc (hb.to_csr).indptr.get ⟨i, by omega⟩
        = ((rowCounts hb.num_sites.toNat hb.sortedTriples).take i).sum := by
          rw [List.get_of_eq hcsr, prefixSums_getElem]
      _ ≤ ((rowCounts hb.num_sites.toNat hb.sortedTriples).take (i + 1)).sum :=
          sum_take_mono _ i
      _ = (hb.to_csr).indptr.get ⟨i + 1, h⟩ := by
          rw [List.get_of_eq hcsr, prefixSums_getElem]
  · refine ⟨(rowCounts hb.num_sites.toNat hb.sortedTriples).sum, ?_, ?_⟩
    · rw [hcsr, List.getLast?_eq_getElem?]
      rw [length_prefixSums, length_rowCounts, Nat.add_sub_cancel]
      rw [List.getElem?_eq_getElem (by rw [length_prefixSums, length_rowCounts]; omega)]
      congr 1
      have h2 : hb.num_sites.toNat <
          (prefixSums (rowCounts hb.num_sites.toNat hb.sortedTriples)).length := by
        rw [length_prefixSums, length_rowCounts]
        omega
      calc (prefixSums (rowCounts hb.num_sites.toNat hb.sortedTriples))[hb.num_sites.toNat]
          = (prefixSums (rowCounts hb.num_sites.toNat hb.sortedTriples)).get
              ⟨hb.num_sites.toNat, h2⟩ := rfl
        _ = ((rowCounts hb.num_sites.toNat hb.sortedTriples).take
              hb.num_sites.toNat).sum := prefixSums_getElem _ _ h2
        _ = (rowCounts hb.num_sites.toNat hb.sortedTriples).sum := by
            rw [List.take_of_length_le (by rw [length_rowCounts])]
    · have hrows : ∀ t ∈ hb.sortedTriples,
          0 ≤ t.row ∧ t.row < ((hb.num_sites.toNat : Nat) : Int) := by
        intro t ht
        have := sortedTriples_mem_range hr t ht
        omega
      rw [sum_rowCounts hb.num_sites.toNat hb.sortedTriples hrows]
      rw [(sortedTriples_perm hb).length_eq]
      exact (nnz_eq_length_flatten hb).symm

/-- C2 witness: on the sample store the row-pointer array is
`[0, 2, 3, 5, 5, 5]`: length 6, non-decreasing, ending in `nnz() = 5`. -/
theorem to_csr_indptr_witness :
    (((sampleHB.to_csr).indptr.length : Int) = sampleHB.num_sites + 1) ∧
    ((sampleHB.to_csr).indptr.get ⟨2, by decide⟩ ≤
      (sampleHB.to_csr).indptr.get ⟨3, by decide⟩) ∧
    ∃ m, (sampleHB.to_csr).indptr.getLast? = some m ∧ (m : Int) = sampleHB.nnz :=
  ⟨(to_csr_indptr sampleHB (by decide) (by decide)).1,
    (to_csr_indptr sampleHB (by decide) (by decide)).2.1 2 (by decide),
    (to_csr_indptr sampleHB (by decide) (by decide)).2.2⟩

/-! ### Sorted output of the converter -/

/-- C1: for an in-range store with no duplicate (row, col) pair, `to_csr`
emits its entries sorted by row then column — consecutive entries are
strictly `lex`-increasing, so within each row the column indices are
strictly ascending — the column/value arrays are those entries' columns and
values in sorted order, and every entry's value is the position of the
block its coordinate pair came from, cast to the storage type. -/
theorem to_csr_sorted_output (hb : HoppingBlocks) (hr : hb.coordsInRange)
    (hnd : hb.pairList.Nodup) :
    List.Chain' lexLt hb.sortedTriples ∧
    (hb.to_csr).indices = hb.sortedTriples.map Triple.col ∧
    (hb.to_csr).data = hb.sortedTriples.map Triple.val ∧
    ∀ t ∈ hb.sortedTriples, ∃ k, ∃ hk : k < hb.blocks.length,
      t.val = wrapStorage (k : Int) ∧ (⟨t.row, t.col⟩ : COO) ∈ hb.blocks.get ⟨k, hk⟩ := by
  refine ⟨?_, rfl, rfl, ?_⟩
  · have hsorted : hb.sortedTriples.Pairwise lexLe := sortedTriples_sorted hb
    have hperm : (hb.sortedTriples.map fun t => (t.row, t.col)).Perm hb.pairList :=
      (sortedTriples_perm hb).map _
    have hnd2 : (hb.sortedTriples.map fun t => (t.row, t.col)).Nodup :=
      hperm.nodup_iff.mpr hnd
    have hpw : hb.sortedTriples.Pairwise fun t u => (t.row, t.col) ≠ (u.row, u.col) :=
      List.pairwise_map.mp hnd2
    have hcomb := hsorted.and hpw
    have hlt : hb.sortedTriples.Pairwise lexLt := by
      refine hcomb.imp ?_
      intro t u h
      obtain ⟨hle, hne⟩ := h
      unfold lexLe at hle
      unfold lexLt
      rcases hle with h | ⟨h1, h2⟩
      · exact Or.inl h
      · right
        refine ⟨h1, ?_⟩
        rcases lt_or_eq_of_le h2 with h3 | h3
        · exact h3
        · exact absurd (by rw [h1, h3]) hne
    exact hlt.chain'
  · intro t ht
    have hmem : t ∈ hb.flatten := (sortedTriples_perm hb).mem_iff.mp ht
    obtain ⟨k, hk, hval, hcoo⟩ := mem_flattenFrom hmem
    exact ⟨k, hk, by simpa using hval, hcoo⟩

/-- C1 witness: the sample store's sorted entries are strictly
lex-increasing with values naming their source blocks. -/
theorem to_csr_sorted_output_witness :
    List.Chain' lexLt sampleHB.sortedTriples ∧
    (sampleHB.to_csr).indices = sampleHB.sortedTriples.map Triple.col ∧
    (sampleHB.to_csr).data = sampleHB.sortedTriples.map Triple.val ∧
    ∀ t ∈ sampleHB.sortedTriples, ∃ k, ∃ hk : k < sampleHB.blocks.length,
      t.val = wrapStorage (k : Int) ∧
        (⟨t.row, t.col⟩ : COO) ∈ sampleHB.blocks.get ⟨k, hk⟩ :=
  to_csr_sorted_output sampleHB (by decide) (by decide)

/-! ### Regrouping flattened entries by family value -/

/-- Filtering the flattened triples by one family's (cast) identifier
recovers exactly that family's block, as long as all ids fit the storage
type. -/
theorem flattenFrom_filter_val :
    ∀ (j : Nat) (bs : List Block), j + bs.length ≤ 2 ^ 31 →
      ∀ k, ∀ hk : k < bs.length,
        ((flattenFrom j bs).filter fun t => decide (t.val = ((j + k : Nat) : Int))) =
          (bs.get ⟨k, hk⟩).map fun c => ⟨c.row, c.col, ((j + k : Nat) : Int)⟩
  | _, [], _, k, hk => by simp at hk
  | j, b :: bs, hbound, k, hk => by
    have hcons : flattenFrom j (b :: bs) =
        (b.map fun c => (⟨c.row, c.col, wrapStorage (j : Int)⟩ : Triple)) ++
          flattenFrom (j + 1) bs := rfl
    have hb1 : j + (bs.length + 1) ≤ 2 ^ 31 := by simpa using hbound
    have hj : wrapStorage (j : Int) = (j : Int) := wrapStorage_natCast (by omega)
    rw [hcons, List.filter_append]
    cases k with
    | zero =>
      have hhead : ((b.map fun c => (⟨c.row, c.col, wrapStorage (j : Int)⟩ : Triple)).filter
          fun t => decide (t.val = ((j + 0 : Nat) : Int))) =
          b.map fun c => (⟨c.row, c.col, ((j + 0 : Nat) : Int)⟩ : Triple) := by
        rw [List.filter_map]
        have hall : ∀ c ∈ b, ((fun t => decide (t.val = ((j + 0 : Nat) : Int))) ∘
            fun c => (⟨c.row, c.col, wrapStorage (j : Int)⟩ : Triple)) c = true := by
          intro c _
          simp [hj]
        rw [List.filter_eq_self.mpr hall]
        apply List.map_congr_left
        intro c _
        simp [hj]
      have htail : ((flattenFrom (j + 1) bs).filter
          fun t => decide (t.val = ((j + 0 : Nat) : Int))) = [] := by
        rw [List.filter_eq_nil_iff]
        intro t ht
        obtain ⟨m, hm, hvalm, _⟩ := mem_flattenFrom ht
        have hw : wrapStorage ((((j + 1) + m : Nat)) : Int) = (((j + 1) + m : Nat) : Int) :=
          wrapStorage_natCast (by omega)
        simp only [decide_eq_true_eq, hvalm, hw]
        push_cast
        omega
      rw [hhead, htail, List.append_nil]
      rfl
    | succ k =>
      have hhead : ((b.map fun c => (⟨c.row, c.col, wrapStorage (j : Int)⟩ : Triple)).filter
          fun t => decide (t.val = ((j + (k + 1) : Nat) : Int))) = [] := by
        rw [List.filter_eq_nil_iff]
        intro t ht
        obtain ⟨c, hc, he⟩ := List.mem_map.mp ht
        rw [← he]
        simp only [decide_eq_true_eq, hj]
        push_cast
        omega
      have hk2 : k < bs.length := by simpa using hk
      have hbound2 : (j + 1) + bs.length ≤ 2 ^ 31 := by omega
      have hrec := flattenFrom_filter_val (j + 1) bs hbound2 k hk2
      have harith : (j + 1) + k = j + (k + 1) := by omega
      rw [harith] at hrec
      rw [hhead, List.nil_append, hrec]
      rfl

/-- C5: for an in-range store with no duplicate coordinate pairs (and
family ids representable in the storage type), regrouping the decompressed
`to_csr` entries by their value gives, for every family, exactly the same
(row, col) pairs — up to order and with the same multiplicity — as that
family's block. -/
theorem to_csr_roundtrip (hb : HoppingBlocks) (hr : hb.coordsInRange)
    (hn : 0 ≤ hb.num_sites) (hnd : hb.pairList.Nodup)
    (hfam : hb.blocks.length ≤ 2 ^ 31) :
    ∀ k, ∀ hk : k < hb.blocks.length,
      (((hb.to_csr).decompress.filter fun t => decide (t.val = (k : Int))).map
          fun t => (t.row, t.col)).Perm
        ((hb.blocks.get ⟨k, hk⟩).map fun c => (c.row, c.col)) := by
  intro k hk
  have hdec : (hb.to_csr).decompress = hb.sortedTriples := by
    have he : hb.to_csr = ⟨prefixSums (rowCounts hb.num_sites.toNat hb.sortedTriples),
        hb.sortedTriples.map Triple.col, hb.sortedTriples.map Triple.val⟩ := rfl
    rw [he]
    apply decompress_sorted
    · exact pairwise_row_of_sorted (sortedTriples_sorted hb)
    · intro t ht
      have := sortedTriples_mem_range hr t ht
      omega
  rw [hdec]
  have hfperm : ((hb.sortedTriples.filter fun t => decide (t.val = (k : Int)))).Perm
      (hb.flatten.filter fun t => decide (t.val = (k : Int))) :=
    (sortedTriples_perm hb).filter _
  have hfl : (hb.flatten.filter fun t => decide (t.val = ((0 + k : Nat) : Int))) =
      (hb.blocks.get ⟨k, hk⟩).map fun c => ⟨c.row, c.col, ((0 + k : Nat) : Int)⟩ :=
    flattenFrom_filter_val 0 hb.blocks (by omega) k hk
  simp only [Nat.zero_add] at hfl
  rw [hfl] at hfperm
  have hmap := hfperm.map (fun t : Triple => (t.row, t.col))
  rw [List.map_map] at hmap
  simpa [Function.comp] using hmap

/-- C5 witness: regrouping the decompressed sample output by value 1
recovers family 1's pairs. -/
theorem to_csr_roundtrip_witness :
    (((sampleHB.to_csr).decompress.filter fun t => decide (t.val = ((1 : Nat) : Int))).map
        fun t => (t.row, t.col)).Perm
      ((sampleHB.blocks.get ⟨1, by decide⟩).map fun c => (c.row, c.col)) :=
  to_csr_roundtrip sampleHB (by decide) (by decide) (by decide) (by decide) 1 (by decide)
